import Mathlib

/-!
# Verification of the brutalist-generator canvas slideshow core

Shallow embedding of the transition rendering engine and slideshow
scheduler implemented in `src/app/layout.tsx` (the `BrutalistSlideshow`
component and its transition algorithms), together with proofs of the
specified properties.

Modelling conventions:
* JavaScript floating-point arithmetic on progress values, block sizes,
  rectangle coordinates and brightness values is embedded as exact
  rational arithmetic (`ℚ`).
* `Math.random()`-driven draws are embedded as explicit streams of
  natural-number draws; `Math.floor(Math.random() * n)` becomes `d % n`
  for the next draw `d`, which ranges over exactly the same set
  `{0, …, n-1}`.
* The mutable React component state (`currentIndex`, `isTransitioning`,
  the loaded-image map, the pending animation) is embedded as an explicit
  state record with pure state-transformer functions for `runTransition`,
  transition completion, and the scheduler interval tick.
-/

namespace Brutalist

/-! ## Configuration constants (layout.tsx lines 46-52, 313-314) -/

def DISPLAY_MS : ℚ := 10000
def TRANSITION_MS : ℚ := 3000
def MAX_BLOCK_SIZE : ℚ := 48
def MIN_BLOCK_SIZE : ℚ := 1
def GRID_COLS : ℕ := 16
def GRID_ROWS : ℕ := 12
def CELL_FADE_DURATION : ℚ := 0.1
def CONTAINER_SAMPLE_COLS : ℕ := 6
def CONTAINER_SAMPLE_ROWS : ℕ := 4

/-! ## Easing (layout.tsx lines 83-85) -/

/-- `easeInOutCubic(t) = t < 0.5 ? 4*t*t*t : 1 - Math.pow(-2*t+2, 3)/2`. -/
def easeInOutCubic (t : ℚ) : ℚ :=
  if t < 1/2 then 4 * t * t * t else 1 - (-2 * t + 2) ^ 3 / 2

/-! ## Mosaic transition block size (layout.tsx lines 199-217) -/

/-- The block size computed by `mosaicTransition.render` for a given
progress: for `progress < 0.5` the from-image is pixelated out with
`MIN + (MAX - MIN) * ease(progress * 2)`; otherwise the to-image is
pixelated in with `MAX - (MAX - MIN) * ease((progress - 0.5) * 2)`. -/
def mosaicBlockSize (progress : ℚ) : ℚ :=
  if progress < 1/2 then
    MIN_BLOCK_SIZE + (MAX_BLOCK_SIZE - MIN_BLOCK_SIZE) * easeInOutCubic (progress * 2)
  else
    MAX_BLOCK_SIZE - (MAX_BLOCK_SIZE - MIN_BLOCK_SIZE) * easeInOutCubic ((progress - 1/2) * 2)

/-! ## Cover-fit geometry (layout.tsx lines 95-116) -/

/-- `getCoverFitRect`: source rectangle `(sx, sy, sw, sh)` of an image of
natural size `naturalWidth × naturalHeight` that cover-fits a canvas of
size `canvasWidth × canvasHeight`. -/
def getCoverFitRect (naturalWidth naturalHeight canvasWidth canvasHeight : ℚ) :
    ℚ × ℚ × ℚ × ℚ :=
  let imgAspect := naturalWidth / naturalHeight
  let canvasAspect := canvasWidth / canvasHeight
  if imgAspect > canvasAspect then
    -- Image is wider - crop sides
    let sw := naturalHeight * canvasAspect
    let sx := (naturalWidth - sw) / 2
    (sx, 0, sw, naturalHeight)
  else
    -- Image is taller - crop top/bottom
    let sh := naturalWidth / canvasAspect
    let sy := (naturalHeight - sh) / 2
    (0, sy, naturalWidth, sh)

/-! ## Grid reveal cell opacity (layout.tsx lines 270-278) -/

/-- Per-cell staggered reveal start time:
`startTime = (i / totalCells) * (1 - CELL_FADE_DURATION)` where `i` is the
cell's rank in the shuffled order. -/
def gridCellStartTime (i totalCells : ℕ) : ℚ :=
  ((i : ℚ) / (totalCells : ℚ)) * (1 - CELL_FADE_DURATION)

/-- Cell opacity at a given progress:
`clamp((progress - startTime) / CELL_FADE_DURATION, 0, 1)` computed as
`Math.max(0, Math.min(1, …))`. -/
def gridCellOpacity (i totalCells : ℕ) (progress : ℚ) : ℚ :=
  max 0 (min 1 ((progress - gridCellStartTime i totalCells) / CELL_FADE_DURATION))

/-! ## Easing lemmas -/

theorem easeInOutCubic_zero : easeInOutCubic 0 = 0 := by
  norm_num [easeInOutCubic]

theorem easeInOutCubic_one : easeInOutCubic 1 = 1 := by
  norm_num [easeInOutCubic]

theorem easeInOutCubic_nonneg {t : ℚ} (h0 : 0 ≤ t) (h1 : t ≤ 1) :
    0 ≤ easeInOutCubic t := by
  unfold easeInOutCubic
  split
  · positivity
  · rename_i h
    push_neg at h
    nlinarith [pow_le_pow_left₀ (by linarith : (0:ℚ) ≤ -2 * t + 2)
      (by linarith : -2 * t + 2 ≤ 1) 3]

theorem easeInOutCubic_le_one {t : ℚ} (h0 : 0 ≤ t) (h1 : t ≤ 1) :
    easeInOutCubic t ≤ 1 := by
  unfold easeInOutCubic
  split
  · rename_i h
    nlinarith [pow_le_pow_left₀ h0 (le_of_lt h) 3]
  · rename_i h
    push_neg at h
    nlinarith [pow_nonneg (by linarith : (0:ℚ) ≤ -2 * t + 2) 3]

theorem easeInOutCubic_mono {t₁ t₂ : ℚ} (h0 : 0 ≤ t₁) (h12 : t₁ ≤ t₂) (h1 : t₂ ≤ 1) :
    easeInOutCubic t₁ ≤ easeInOutCubic t₂ := by
  unfold easeInOutCubic
  rcases lt_or_ge t₁ (1/2) with hlt₁ | hge₁
  · rcases lt_or_ge t₂ (1/2) with hlt₂ | hge₂
    · rw [if_pos hlt₁, if_pos hlt₂]
      nlinarith [mul_le_mul_of_nonneg_left h12 h0, sq_nonneg (t₁ + t₂), sq_nonneg (t₁ - t₂)]
    · rw [if_pos hlt₁, if_neg (not_lt.mpr hge₂)]
      have hcube : t₁ * t₁ * t₁ ≤ (1/2) * (1/2) * (1/2) := by nlinarith
      nlinarith [pow_nonneg (by linarith : (0:ℚ) ≤ -2 * t₂ + 2) 3,
        pow_le_pow_left₀ (by linarith : (0:ℚ) ≤ -2 * t₂ + 2) (by linarith : -2 * t₂ + 2 ≤ 1) 3]
  · rw [if_neg (not_lt.mpr hge₁), if_neg (not_lt.mpr (le_trans hge₁ h12))]
    have hb : (0:ℚ) ≤ -2 * t₂ + 2 := by linarith
    have hle : -2 * t₂ + 2 ≤ -2 * t₁ + 2 := by linarith
    have := pow_le_pow_left₀ hb hle 3
    linarith

/-! ## C5 : Mosaic block-size profile -/

/-- **C5.** For every progress in `[0,1]`, the Mosaic transition's computed
block size is monotonically non-decreasing on `[0, 0.5]`, non-increasing on
`[0.5, 1]`, equals `MIN_BLOCK_SIZE` at progress `0` and `1`, and equals
`MAX_BLOCK_SIZE` at progress `0.5`, where the easing is the cubic
ease-in-out `t < 0.5 ? 4t³ : 1 - ((-2t+2)³)/2`. -/
theorem mosaic_blockSize_profile :
    (∀ p₁ p₂ : ℚ, 0 ≤ p₁ → p₁ ≤ p₂ → p₂ ≤ 1/2 →
      mosaicBlockSize p₁ ≤ mosaicBlockSize p₂) ∧
    (∀ p₁ p₂ : ℚ, 1/2 ≤ p₁ → p₁ ≤ p₂ → p₂ ≤ 1 →
      mosaicBlockSize p₂ ≤ mosaicBlockSize p₁) ∧
    mosaicBlockSize 0 = MIN_BLOCK_SIZE ∧
    mosaicBlockSize 1 = MIN_BLOCK_SIZE ∧
    mosaicBlockSize (1/2) = MAX_BLOCK_SIZE := by
  refine ⟨?_, ?_, ?_, ?_, ?_⟩
  · intro p₁ p₂ h0 h12 h2
    unfold mosaicBlockSize
    rcases lt_or_ge p₂ (1/2) with hlt₂ | hge₂
    · rw [if_pos (lt_of_le_of_lt h12 hlt₂), if_pos hlt₂]
      have := @easeInOutCubic_mono (p₁ * 2) (p₂ * 2)
        (by linarith) (by linarith) (by linarith)
      unfold MIN_BLOCK_SIZE MAX_BLOCK_SIZE
      linarith
    · have hp₂ : p₂ = 1/2 := le_antisymm h2 hge₂
      rw [if_neg (not_lt.mpr hge₂)]
      rcases lt_or_ge p₁ (1/2) with hlt₁ | hge₁
      · rw [if_pos hlt₁]
        have h₁ := @easeInOutCubic_le_one (p₁ * 2) (by linarith) (by linarith)
        have h₂ := @easeInOutCubic_nonneg ((p₂ - 1/2) * 2) (by linarith) (by linarith)
        have hz : (p₂ - 1/2) * 2 = 0 := by rw [hp₂]; ring
        rw [hz, easeInOutCubic_zero]
        unfold MIN_BLOCK_SIZE MAX_BLOCK_SIZE
        linarith
      · have hp₁ : p₁ = 1/2 := le_antisymm (le_trans h12 h2) hge₁
        rw [if_neg (not_lt.mpr hge₁), hp₁, hp₂]
  · intro p₁ p₂ h0 h12 h2
    unfold mosaicBlockSize
    rw [if_neg (not_lt.mpr h0), if_neg (not_lt.mpr (le_trans h0 h12))]
    have := @easeInOutCubic_mono ((p₁ - 1/2) * 2) ((p₂ - 1/2) * 2)
      (by linarith) (by linarith) (by linarith)
    unfold MIN_BLOCK_SIZE MAX_BLOCK_SIZE
    linarith
  · norm_num [mosaicBlockSize, easeInOutCubic, MIN_BLOCK_SIZE, MAX_BLOCK_SIZE]
  · norm_num [mosaicBlockSize, easeInOutCubic, MIN_BLOCK_SIZE, MAX_BLOCK_SIZE]
  · norm_num [mosaicBlockSize, easeInOutCubic, MIN_BLOCK_SIZE, MAX_BLOCK_SIZE]

/-- Witness for C5: the monotonicity conjuncts applied at concrete
progress values, with their hypotheses discharged numerically. -/
theorem mosaic_blockSize_profile_witness :
    ((0:ℚ) ≤ 1/4 ∧ (1/4:ℚ) ≤ 1/2 ∧ ((1/2:ℚ) ≤ 1/2) ∧
      mosaicBlockSize (1/4) ≤ mosaicBlockSize (1/2)) ∧
    ((1/2:ℚ) ≤ 3/4 ∧ (3/4:ℚ) ≤ 1 ∧
      mosaicBlockSize 1 ≤ mosaicBlockSize (3/4)) :=
  ⟨⟨by norm_num, by norm_num, by norm_num,
      mosaic_blockSize_profile.1 (1/4) (1/2) (by norm_num) (by norm_num) (by norm_num)⟩,
    ⟨by norm_num, by norm_num,
      mosaic_blockSize_profile.2.1 (3/4) 1 (by norm_num) (by norm_num) (by norm_num)⟩⟩

/-! ## C8 : Cover-fit source rectangle -/

/-- **C8.** For every image with positive natural width/height and every
positive target, the cover-fit source rectangle returned by
`getCoverFitRect` lies within the image bounds, has the same aspect ratio
as the target (`sw * ch = sh * cw`), crops only along the one axis whose
aspect exceeds the target's (full height kept when the image is wider,
full width kept otherwise), and crops symmetrically (equal margins on both
sides of the cropped axis). -/
theorem getCoverFitRect_spec (nw nh cw ch : ℚ)
    (hnw : 0 < nw) (hnh : 0 < nh) (hcw : 0 < cw) (hch : 0 < ch) :
    (0 ≤ (getCoverFitRect nw nh cw ch).1 ∧
      (getCoverFitRect nw nh cw ch).1 + (getCoverFitRect nw nh cw ch).2.2.1 ≤ nw ∧
      0 ≤ (getCoverFitRect nw nh cw ch).2.1 ∧
      (getCoverFitRect nw nh cw ch).2.1 + (getCoverFitRect nw nh cw ch).2.2.2 ≤ nh) ∧
    (0 < (getCoverFitRect nw nh cw ch).2.2.1 ∧
      0 < (getCoverFitRect nw nh cw ch).2.2.2 ∧
      (getCoverFitRect nw nh cw ch).2.2.1 * ch =
        (getCoverFitRect nw nh cw ch).2.2.2 * cw) ∧
    (nw / nh > cw / ch →
      (getCoverFitRect nw nh cw ch).2.2.2 = nh ∧
      (getCoverFitRect nw nh cw ch).2.1 = 0) ∧
    (¬ nw / nh > cw / ch →
      (getCoverFitRect nw nh cw ch).2.2.1 = nw ∧
      (getCoverFitRect nw nh cw ch).1 = 0) ∧
    (nw - ((getCoverFitRect nw nh cw ch).1 + (getCoverFitRect nw nh cw ch).2.2.1) =
        (getCoverFitRect nw nh cw ch).1 ∧
      nh - ((getCoverFitRect nw nh cw ch).2.1 + (getCoverFitRect nw nh cw ch).2.2.2) =
        (getCoverFitRect nw nh cw ch).2.1) := by
  unfold getCoverFitRect
  by_cases hcase : nw / nh > cw / ch
  · rw [if_pos hcase]
    have hkey : cw * nh < nw * ch := by
      rw [gt_iff_lt, div_lt_div_iff₀ hch hnh] at hcase
      linarith
    have hsw : nh * (cw / ch) = nh * cw / ch := by ring
    have hswpos : 0 < nh * (cw / ch) := by positivity
    have hswle : nh * (cw / ch) ≤ nw := by
      rw [hsw, div_le_iff₀ hch]
      nlinarith
    refine ⟨⟨by linarith, by linarith, le_refl 0, by linarith⟩,
      ⟨hswpos, hnh, ?_⟩, fun _ => ⟨rfl, rfl⟩, fun hc => absurd hcase hc, ⟨by ring, by ring⟩⟩
    field_simp
  · rw [if_neg hcase]
    push_neg at hcase
    have hkey : nw * ch ≤ cw * nh := by
      rw [div_le_div_iff₀ hnh hch] at hcase
      linarith
    have hsh : nw / (cw / ch) = nw * ch / cw := by
      field_simp
    have hshpos : 0 < nw / (cw / ch) := by
      have : 0 < cw / ch := by positivity
      positivity
    have hshle : nw / (cw / ch) ≤ nh := by
      rw [hsh, div_le_iff₀ hcw]
      nlinarith
    refine ⟨⟨le_refl 0, by linarith, by linarith, by linarith⟩,
      ⟨hnw, hshpos, ?_⟩, fun hc => absurd hc (not_lt.mpr hcase), fun _ => ⟨rfl, rfl⟩,
      ⟨by ring, by ring⟩⟩
    rw [hsh]
    field_simp

/-- Witness for C8: the theorem applied to a wide 200×100 image and a
square 100×100 canvas. -/
theorem getCoverFitRect_spec_witness :
    (0:ℚ) < 200 ∧ (0:ℚ) < 100 ∧
    0 ≤ (getCoverFitRect 200 100 100 100).1 ∧
    (getCoverFitRect 200 100 100 100).1 + (getCoverFitRect 200 100 100 100).2.2.1 ≤ 200 ∧
    (getCoverFitRect 200 100 100 100).2.2.1 * 100 =
      (getCoverFitRect 200 100 100 100).2.2.2 * 100 ∧
    200 - ((getCoverFitRect 200 100 100 100).1 + (getCoverFitRect 200 100 100 100).2.2.1) =
      (getCoverFitRect 200 100 100 100).1 :=
  ⟨by norm_num, by norm_num,
    (getCoverFitRect_spec 200 100 100 100 (by norm_num) (by norm_num) (by norm_num)
      (by norm_num)).1.1,
    (getCoverFitRect_spec 200 100 100 100 (by norm_num) (by norm_num) (by norm_num)
      (by norm_num)).1.2.1,
    (getCoverFitRect_spec 200 100 100 100 (by norm_num) (by norm_num) (by norm_num)
      (by norm_num)).2.1.2.2,
    (getCoverFitRect_spec 200 100 100 100 (by norm_num) (by norm_num) (by norm_num)
      (by norm_num)).2.2.2.2.1⟩

/-! ## Fisher-Yates shuffle (layout.tsx lines 136-143)

`shuffleArray` copies the input and runs
`for (let i = length-1; i > 0; i--) { j = floor(random()*(i+1)); swap(i, j) }`.
Each loop iteration consumes one random draw; a draw `d` stands for the
value with `Math.floor(Math.random() * (i+1)) = d % (i+1)`. -/

/-- The destructuring swap `[a[i], a[j]] = [a[j], a[i]]` (identity when an
index is out of bounds, which the shuffle loop never produces). -/
def listSwap {α : Type} (l : List α) (i j : ℕ) : List α :=
  if h : i < l.length ∧ j < l.length then
    (l.set i (l.get ⟨j, h.2⟩)).set j (l.get ⟨i, h.1⟩)
  else l

/-- The shuffle loop with loop counter `i` and the stream of pending
random draws; `shuffleAux l i ds` performs the iterations for
`i, i-1, …, 1`. -/
def shuffleAux {α : Type} : List α → ℕ → List ℕ → List α
  | l, 0, _ => l
  | l, _+1, [] => l
  | l, i+1, d :: ds => shuffleAux (listSwap l (i+1) (d % (i+2))) i ds

/-- `shuffleArray` seeded with an explicit stream of random draws. -/
def shuffleArray {α : Type} (l : List α) (draws : List ℕ) : List α :=
  shuffleAux l (l.length - 1) draws

/-- The canonical sample space of the shuffle loop run with counter `i`:
one draw per iteration, the draw for iteration `i` ranging over
`{0, …, i}` (the exact range of `Math.floor(Math.random() * (i+1))`). -/
def validDraws : ℕ → List ℕ → Bool
  | 0, ds => ds.isEmpty
  | _+1, [] => false
  | i+1, d :: ds => decide (d < i + 2) && validDraws i ds

/-- The cell order built by `gridRevealTransition.init`:
`shuffleArray(Array.from({length: totalCells}, (_, i) => i))`. -/
def gridRevealCellOrder (draws : List ℕ) : List ℕ :=
  shuffleArray (List.range (GRID_COLS * GRID_ROWS)) draws

theorem get_cons_set_perm {α : Type} :
    ∀ (t : List α) (m : ℕ) (hm : m < t.length) (a : α),
      List.Perm (t.get ⟨m, hm⟩ :: t.set m a) (a :: t) := by
  intro t
  induction t with
  | nil => intro m hm a; simp at hm
  | cons b t' ih =>
    intro m hm a
    match m with
    | 0 => simpa using List.Perm.swap a b t'
    | k + 1 =>
      have hk : k < t'.length := by simpa using hm
      have step1 : List.Perm (t'.get ⟨k, hk⟩ :: b :: t'.set k a)
          (b :: t'.get ⟨k, hk⟩ :: t'.set k a) := List.Perm.swap b _ _
      have step2 : List.Perm (b :: t'.get ⟨k, hk⟩ :: t'.set k a)
          (b :: (a :: t')) := (ih k hk a).cons b
      have step3 : List.Perm (b :: a :: t') (a :: b :: t') := List.Perm.swap a b t'
      simpa using (step1.trans step2).trans step3

theorem set_set_swap_perm {α : Type} :
    ∀ (l : List α) (i j : ℕ) (hi : i < l.length) (hj : j < l.length),
      List.Perm ((l.set i (l.get ⟨j, hj⟩)).set j (l.get ⟨i, hi⟩)) l := by
  intro l
  induction l with
  | nil => intro i j hi hj; simp at hi
  | cons a t ih =>
    intro i j hi hj
    match i, j with
    | 0, 0 => simp
    | 0, m + 1 =>
      have hm : m < t.length := by simpa using hj
      simpa using get_cons_set_perm t m hm a
    | k + 1, 0 =>
      have hk : k < t.length := by simpa using hi
      simpa using get_cons_set_perm t k hk a
    | k + 1, m + 1 =>
      have hk : k < t.length := by simpa using hi
      have hm : m < t.length := by simpa using hj
      simpa using (ih k m hk hm).cons a

theorem listSwap_perm {α : Type} (l : List α) (i j : ℕ) : List.Perm (listSwap l i j) l := by
  unfold listSwap
  split
  · rename_i h
    exact set_set_swap_perm l i j h.1 h.2
  · exact List.Perm.refl l

theorem listSwap_length {α : Type} (l : List α) (i j : ℕ) :
    (listSwap l i j).length = l.length :=
  (listSwap_perm l i j).length_eq

theorem listSwap_drop {α : Type} (l : List α) {i j m : ℕ} (hi : i < m) (hj : j < m) :
    (listSwap l i j).drop m = l.drop m := by
  unfold listSwap
  split
  · simp [List.drop_set, hi, hj]
  · rfl

theorem listSwap_getElem?_fst {α : Type} (l : List α) {i j : ℕ}
    (hi : i < l.length) (hj : j < l.length) :
    (listSwap l i j)[i]? = l[j]? := by
  unfold listSwap
  rw [dif_pos ⟨hi, hj⟩]
  by_cases hij : i = j
  · subst hij
    rw [List.getElem?_set_self (by simpa using hi)]
    simp [List.getElem?_eq_getElem hi]
  · rw [List.getElem?_set_ne (Ne.symm hij)]
    rw [List.getElem?_set_self (by simpa using hi)]
    simp [List.getElem?_eq_getElem hj]

theorem shuffleAux_perm {α : Type} :
    ∀ (i : ℕ) (ds : List ℕ) (l : List α), List.Perm (shuffleAux l i ds) l := by
  intro i
  induction i with
  | zero => intro ds l; exact List.Perm.refl l
  | succ i ih =>
    intro ds l
    match ds with
    | [] => exact List.Perm.refl l
    | d :: ds' =>
      exact (ih ds' (listSwap l (i+1) (d % (i+2)))).trans
        (listSwap_perm l (i+1) (d % (i+2)))

theorem shuffleAux_length {α : Type} (i : ℕ) (ds : List ℕ) (l : List α) :
    (shuffleAux l i ds).length = l.length :=
  (shuffleAux_perm i ds l).length_eq

theorem shuffleAux_drop {α : Type} :
    ∀ (i : ℕ) (ds : List ℕ) (l : List α),
      (shuffleAux l i ds).drop (i+1) = l.drop (i+1) := by
  intro i
  induction i with
  | zero =>
    intro ds l
    match ds with
    | [] => rfl
    | _ :: _ => rfl
  | succ i ih =>
    intro ds l
    match ds with
    | [] => rfl
    | d :: ds' =>
      show (shuffleAux (listSwap l (i+1) (d % (i+2))) i ds').drop (i+2) = l.drop (i+2)
      have h1 : (shuffleAux (listSwap l (i+1) (d % (i+2))) i ds').drop (i+1) =
          (listSwap l (i+1) (d % (i+2))).drop (i+1) := ih ds' _
      have h2 : (listSwap l (i+1) (d % (i+2))).drop (i+2) = l.drop (i+2) :=
        listSwap_drop l (Nat.lt_succ_self (i+1)) (Nat.mod_lt d (by omega))
      calc (shuffleAux (listSwap l (i+1) (d % (i+2))) i ds').drop (i+2)
          = ((shuffleAux (listSwap l (i+1) (d % (i+2))) i ds').drop (i+1)).drop 1 := by
            rw [List.drop_drop]
        _ = ((listSwap l (i+1) (d % (i+2))).drop (i+1)).drop 1 := by rw [h1]
        _ = (listSwap l (i+1) (d % (i+2))).drop (i+2) := by rw [List.drop_drop]
        _ = l.drop (i+2) := h2

theorem getElem?_eq_of_drop_eq {α : Type} {x y : List α} {n : ℕ}
    (h : x.drop n = y.drop n) : x[n]? = y[n]? := by
  have hx : (x.drop n)[0]? = x[n]? := by rw [List.getElem?_drop, Nat.add_zero]
  have hy : (y.drop n)[0]? = y[n]? := by rw [List.getElem?_drop, Nat.add_zero]
  rw [← hx, ← hy, h]

theorem shuffleAux_getElem?_succ {α : Type} (i : ℕ) (ds : List ℕ) (l : List α) :
    (shuffleAux l i ds)[i+1]? = l[i+1]? :=
  getElem?_eq_of_drop_eq (shuffleAux_drop i ds l)

/-- The result of `shuffleArray` is always a permutation of its input. -/
theorem shuffleArray_perm {α : Type} (l : List α) (draws : List ℕ) :
    List.Perm (shuffleArray l draws) l :=
  shuffleAux_perm (l.length - 1) draws l

/-! ### Uniformity of the shuffle

The shuffle run with counter `i` consumes a draw tuple from the canonical
sample space described by `validDraws i`; under independent uniform draws
every tuple of that space has the same probability `1/(i+1)!`. The two
lemmas below show that the map from draw tuples to output lists is a
bijection onto the permutations of a duplicate-free input, so every
permutation is produced by exactly one equally-likely draw tuple. -/

theorem head_eq_of_cons_perm_cons {a b : ℕ} {t : List ℕ}
    (h : List.Perm (b :: t) (a :: t)) : b = a := by
  by_cases hab : a = b
  · exact hab.symm
  · exfalso
    have hc := h.count_eq a
    rw [List.count_cons, List.count_cons] at hc
    simp only [beq_iff_eq] at hc
    rw [if_neg (fun h => hab h.symm), if_pos trivial] at hc
    omega

theorem indexOf_lt_of_mem_take {a : ℕ} :
    ∀ (l : List ℕ) (n : ℕ), a ∈ l.take n → l.indexOf a < n := by
  intro l
  induction l with
  | nil => intro n h; simp at h
  | cons b t ih =>
    intro n h
    match n with
    | 0 => simp at h
    | m + 1 =>
      rw [List.take_succ_cons] at h
      by_cases hab : b = a
      · subst hab
        rw [List.indexOf_cons_self]
        omega
      · have hmem : a ∈ t.take m := by
          rcases List.mem_cons.mp h with h' | h'
          · exact absurd h'.symm hab
          · exact h'
        rw [List.indexOf_cons_ne _ hab]
        exact Nat.succ_lt_succ (ih m hmem)

theorem take_perm_of_perm_of_drop_eq {p l : List ℕ} {n : ℕ}
    (h : List.Perm p l) (hd : p.drop n = l.drop n) :
    List.Perm (p.take n) (l.take n) := by
  have h2 : List.Perm (p.take n ++ p.drop n) (l.take n ++ l.drop n) := by
    rw [List.take_append_drop, List.take_append_drop]
    exact h
  rw [hd] at h2
  exact (List.perm_append_right_iff _).1 h2

/-- Existence half of uniformity: every list that is a permutation of `l`
and agrees with `l` beyond position `i` is produced by at least one valid
draw tuple. -/
theorem shuffleAux_surjective :
    ∀ (i : ℕ) (l p : List ℕ), i < l.length → List.Perm p l →
      p.drop (i+1) = l.drop (i+1) →
      ∃ ds, validDraws i ds = true ∧ shuffleAux l i ds = p := by
  intro i
  induction i with
  | zero =>
    intro l p hi hperm hdrop
    refine ⟨[], rfl, ?_⟩
    match l, p, hi, hperm, hdrop with
    | a :: t, [], hi, hperm, hdrop => exact absurd hperm.length_eq (by simp)
    | a :: t, b :: s, hi, hperm, hdrop =>
      simp only [List.drop_succ_cons, List.drop_zero] at hdrop
      subst hdrop
      have := head_eq_of_cons_perm_cons hperm
      subst this
      rfl
  | succ i ih =>
    intro l p hi hperm hdrop
    have hlen : p.length = l.length := hperm.length_eq
    have hip : i + 1 < p.length := by omega
    -- the element the output keeps at position i+1
    set y := p.get ⟨i+1, hip⟩ with hy
    have hytake : y ∈ p.take (i+2) := by
      have hgt : (p.take (i+2)).get ⟨i+1, by simp [List.length_take]; omega⟩ =
          p.get ⟨i+1, hip⟩ := by
        simp [List.get_eq_getElem]
      rw [hy, ← hgt]
      exact List.get_mem _ _ _
    have htperm : List.Perm (p.take (i+2)) (l.take (i+2)) :=
      take_perm_of_perm_of_drop_eq hperm hdrop
    have hymem : y ∈ l.take (i+2) := htperm.mem_iff.mp hytake
    have hymeml : y ∈ l := List.mem_of_mem_take hymem
    set j := l.indexOf y with hj
    have hjlt : j < l.length := List.indexOf_lt_length.mpr hymeml
    have hjlt2 : j < i + 2 := indexOf_lt_of_mem_take l (i+2) hymem
    have hgetj : l[j] = y := List.getElem_indexOf hjlt
    set l' := listSwap l (i+1) j with hl'
    have hl'perm : List.Perm l' l := listSwap_perm l (i+1) j
    have hl'len : l'.length = l.length := listSwap_length l (i+1) j
    have hl'get : l'[i+1]? = l[j]? := listSwap_getElem?_fst l hi hjlt
    have hl'drop : l'.drop (i+2) = l.drop (i+2) :=
      listSwap_drop l (Nat.lt_succ_self (i+1)) hjlt2
    have hpdrop : p.drop (i+1) = l'.drop (i+1) := by
      have hp1 : p.drop (i+1) = p.get ⟨i+1, hip⟩ :: p.drop (i+2) :=
        (List.getElem_cons_drop p (i+1) hip).symm
      have hil' : i + 1 < l'.length := by omega
      have hl1 : l'.drop (i+1) = l'.get ⟨i+1, hil'⟩ :: l'.drop (i+2) :=
        (List.getElem_cons_drop l' (i+1) hil').symm
      have hl'gety : l'.get ⟨i+1, hil'⟩ = y := by
        have h1 : l'[i+1]? = some (l'.get ⟨i+1, hil'⟩) := by
          simp [List.getElem?_eq_getElem hil', List.get_eq_getElem]
        have h2 : l[j]? = some y := by
          simp [List.getElem?_eq_getElem hjlt, hgetj]
        rw [hl'get, h2] at h1
        exact (Option.some_injective _ h1.symm)
      rw [hp1, hl1, hl'gety, hdrop, hl'drop]
    have hpperm : List.Perm p l' := hperm.trans hl'perm.symm
    obtain ⟨ds, hv, hs⟩ := ih l' p (by omega) hpperm hpdrop
    refine ⟨j :: ds, ?_, ?_⟩
    · simp [validDraws, hjlt2, hv]
    · show shuffleAux (listSwap l (i+1) (j % (i+2))) i ds = p
      rw [Nat.mod_eq_of_lt hjlt2]
      exact hs

/-- Uniqueness half of uniformity: over a duplicate-free input, distinct
valid draw tuples produce distinct outputs. -/
theorem shuffleAux_injective :
    ∀ (i : ℕ) (l : List ℕ), l.Nodup → i < l.length →
      ∀ ds₁ ds₂, validDraws i ds₁ = true → validDraws i ds₂ = true →
        shuffleAux l i ds₁ = shuffleAux l i ds₂ → ds₁ = ds₂ := by
  intro i
  induction i with
  | zero =>
    intro l _ _ ds₁ ds₂ h₁ h₂ _
    simp only [validDraws, List.isEmpty_iff] at h₁ h₂
    rw [h₁, h₂]
  | succ i ih =>
    intro l hnd hi ds₁ ds₂ h₁ h₂ heq
    match ds₁, ds₂, h₁, h₂ with
    | d₁ :: t₁, d₂ :: t₂, h₁, h₂ =>
      simp only [validDraws, Bool.and_eq_true, decide_eq_true_eq] at h₁ h₂
      obtain ⟨hd₁, ht₁⟩ := h₁
      obtain ⟨hd₂, ht₂⟩ := h₂
      have hm₁ : d₁ % (i+2) = d₁ := Nat.mod_eq_of_lt hd₁
      have hm₂ : d₂ % (i+2) = d₂ := Nat.mod_eq_of_lt hd₂
      have heq' : shuffleAux (listSwap l (i+1) d₁) i t₁ =
          shuffleAux (listSwap l (i+1) d₂) i t₂ := by
        have e1 : shuffleAux l (i+1) (d₁ :: t₁) =
            shuffleAux (listSwap l (i+1) d₁) i t₁ := by
          show shuffleAux (listSwap l (i+1) (d₁ % (i+2))) i t₁ = _
          rw [hm₁]
        have e2 : shuffleAux l (i+1) (d₂ :: t₂) =
            shuffleAux (listSwap l (i+1) d₂) i t₂ := by
          show shuffleAux (listSwap l (i+1) (d₂ % (i+2))) i t₂ = _
          rw [hm₂]
        rw [← e1, ← e2]
        exact heq
      have hd₁l : d₁ < l.length := by omega
      have hd₂l : d₂ < l.length := by omega
      have hg₁ : (shuffleAux (listSwap l (i+1) d₁) i t₁)[i+1]? = l[d₁]? := by
        rw [shuffleAux_getElem?_succ]
        exact listSwap_getElem?_fst l hi hd₁l
      have hg₂ : (shuffleAux (listSwap l (i+1) d₂) i t₂)[i+1]? = l[d₂]? := by
        rw [shuffleAux_getElem?_succ]
        exact listSwap_getElem?_fst l hi hd₂l
      have hgl : l[d₁]? = l[d₂]? := by rw [← hg₁, ← hg₂, heq']
      have hdd : d₁ = d₂ := by
        rw [List.getElem?_eq_getElem hd₁l, List.getElem?_eq_getElem hd₂l] at hgl
        have := Option.some_injective _ hgl
        exact (hnd.getElem_inj_iff).mp this
      subst hdd
      have htt : t₁ = t₂ :=
        ih (listSwap l (i+1) d₁) ((listSwap_perm l (i+1) d₁).symm.nodup hnd)
          (by rw [listSwap_length]; omega) t₁ t₂ ht₁ ht₂ heq'
      rw [htt]

theorem shuffleArray_range (n : ℕ) (ds : List ℕ) :
    shuffleArray (List.range n) ds = shuffleAux (List.range n) (n - 1) ds := by
  rw [shuffleArray, List.length_range]

/-- Cell opacity at the end of the transition: every rank finishes its
fade by progress `1`. -/
theorem gridCellOpacity_at_one {i N : ℕ} (hi : i < N) :
    gridCellOpacity i N 1 = 1 := by
  have hN0 : 0 < N := by omega
  have hN : (0:ℚ) < (N:ℚ) := by exact_mod_cast hN0
  have hdivle : (i:ℚ) / (N:ℚ) ≤ 1 := by
    rw [div_le_one hN]
    exact_mod_cast hi.le
  have hdivnn : (0:ℚ) ≤ (i:ℚ) / (N:ℚ) := by positivity
  unfold gridCellOpacity gridCellStartTime CELL_FADE_DURATION
  have hv : (1:ℚ) ≤ (1 - (i:ℚ) / (N:ℚ) * (1 - 0.1)) / 0.1 := by
    rw [le_div_iff₀ (by norm_num : (0:ℚ) < 0.1)]
    nlinarith
  rw [min_eq_left hv]
  norm_num

/-- **C6.** For the Grid Reveal over `GRID_COLS × GRID_ROWS` cells: the
cell order produced at `init` is a permutation of all cell indices (no
duplicates, no omissions); every permutation is equally likely under a
uniform random source, formalised as: each permutation of the index range
is produced by exactly one draw tuple from the canonical equiprobable
sample space `validDraws`; and at progress `1` every cell's computed
opacity equals `1`. -/
theorem gridReveal_cellOrder_spec :
    (∀ draws : List ℕ,
      (gridRevealCellOrder draws).Nodup ∧
      (∀ c, c ∈ gridRevealCellOrder draws ↔ c < GRID_COLS * GRID_ROWS) ∧
      (gridRevealCellOrder draws).length = GRID_COLS * GRID_ROWS) ∧
    (∀ p : List ℕ, List.Perm p (List.range (GRID_COLS * GRID_ROWS)) →
      ∃! ds, validDraws (GRID_COLS * GRID_ROWS - 1) ds = true ∧
        gridRevealCellOrder ds = p) ∧
    (∀ i : ℕ, i < GRID_COLS * GRID_ROWS →
      gridCellOpacity i (GRID_COLS * GRID_ROWS) 1 = 1) := by
  have hNpos : 0 < GRID_COLS * GRID_ROWS := by decide
  refine ⟨?_, ?_, ?_⟩
  · intro draws
    have hperm := shuffleArray_perm (List.range (GRID_COLS * GRID_ROWS)) draws
    refine ⟨hperm.symm.nodup (List.nodup_range _), ?_, ?_⟩
    · intro c
      rw [gridRevealCellOrder, hperm.mem_iff, List.mem_range]
    · rw [gridRevealCellOrder, hperm.length_eq, List.length_range]
  · intro p hp
    have hlt : GRID_COLS * GRID_ROWS - 1 < (List.range (GRID_COLS * GRID_ROWS)).length := by
      rw [List.length_range]
      omega
    have hsucc : GRID_COLS * GRID_ROWS - 1 + 1 = GRID_COLS * GRID_ROWS := by omega
    have hdrop : p.drop (GRID_COLS * GRID_ROWS - 1 + 1) =
        (List.range (GRID_COLS * GRID_ROWS)).drop (GRID_COLS * GRID_ROWS - 1 + 1) := by
      rw [hsucc, List.drop_eq_nil_of_le, List.drop_eq_nil_of_le]
      · rw [List.length_range]
      · rw [hp.length_eq, List.length_range]
    obtain ⟨ds, hv, hs⟩ := shuffleAux_surjective (GRID_COLS * GRID_ROWS - 1)
      (List.range (GRID_COLS * GRID_ROWS)) p hlt hp hdrop
    refine ⟨ds, ⟨hv, ?_⟩, ?_⟩
    · rw [gridRevealCellOrder, shuffleArray_range]
      exact hs
    · intro ds' hds'
      obtain ⟨hv', hs'⟩ := hds'
      rw [gridRevealCellOrder, shuffleArray_range] at hs'
      exact shuffleAux_injective (GRID_COLS * GRID_ROWS - 1)
        (List.range (GRID_COLS * GRID_ROWS)) (List.nodup_range _) hlt
        ds' ds hv' hv (hs'.trans hs.symm)
  · intro i hi
    exact gridCellOpacity_at_one hi

/-- Witness for C6: the uniformity conjunct applied to the identity
permutation and the opacity conjunct applied to rank `0`, hypotheses
discharged concretely. -/
theorem gridReveal_cellOrder_spec_witness :
    (List.Perm (List.range (GRID_COLS * GRID_ROWS)) (List.range (GRID_COLS * GRID_ROWS)) ∧
      ∃! ds, validDraws (GRID_COLS * GRID_ROWS - 1) ds = true ∧
        gridRevealCellOrder ds = List.range (GRID_COLS * GRID_ROWS)) ∧
    (0 < GRID_COLS * GRID_ROWS ∧
      gridCellOpacity 0 (GRID_COLS * GRID_ROWS) 1 = 1) :=
  ⟨⟨List.Perm.refl _, gridReveal_cellOrder_spec.2.1 _ (List.Perm.refl _)⟩,
    ⟨by decide, gridReveal_cellOrder_spec.2.2 0 (by decide)⟩⟩

/-! ## Container transform (layout.tsx lines 305-457)

`findDarkestRegion` draws the from-image cover-fit onto a sample canvas,
then scans a `CONTAINER_SAMPLE_COLS × CONTAINER_SAMPLE_ROWS` grid of cells;
for each cell it reads the cell's `getImageData` pixels, averages the luma
of every 16th pixel (stride 64 bytes over the RGBA array), and keeps the
strictly darkest cell seen so far (initial best brightness `255`).
The canvas raster itself cannot be embedded, so the pixel data of each
grid cell is the model's input: `cellData row col` is the list of RGBA
pixels `getImageData` returns for that cell. -/

/-- One RGBA pixel (r, g, b, a channel bytes). -/
abbrev Pixel := ℕ × ℕ × ℕ × ℕ

/-- Perceived brightness `0.299*r + 0.587*g + 0.114*b`. -/
def lumaOf (r g b : ℕ) : ℚ := 0.299 * r + 0.587 * g + 0.114 * b

/-- The sampling stride: the loop `for (i = 0; i < data.length; i += 64)`
reads every 16th pixel of the RGBA byte array. -/
def sampleEvery16 : List Pixel → List Pixel
  | [] => []
  | p :: rest => p :: sampleEvery16 (rest.drop 15)
termination_by l => l.length
decreasing_by simp [List.length_drop]; omega

/-- `totalBrightness / sampleCount` over the sampled pixels of a cell. -/
def avgSampledBrightness (data : List Pixel) : ℚ :=
  let samples := sampleEvery16 data
  (samples.map (fun px => lumaOf px.1 px.2.1 px.2.2.1)).sum / (samples.length : ℚ)

/-- Row-major iteration order of the nested
`for (row …) for (col …)` scan loops. -/
def containerSampleCells : List (ℕ × ℕ) :=
  (List.range CONTAINER_SAMPLE_ROWS).flatMap (fun row =>
    (List.range CONTAINER_SAMPLE_COLS).map (fun col => (row, col)))

/-- One iteration of the scan: keep the strictly darkest cell so far.
The accumulator is `(darkestBrightness, darkestCol, darkestRow)`. -/
def darkestStep (cellData : ℕ → ℕ → List Pixel) (acc : ℚ × ℕ × ℕ) (rc : ℕ × ℕ) :
    ℚ × ℕ × ℕ :=
  let avgBrightness := avgSampledBrightness (cellData rc.1 rc.2)
  if avgBrightness < acc.1 then (avgBrightness, rc.2, rc.1) else acc

/-- The scan over all sample cells, starting from
`darkestBrightness = 255, darkestCol = 0, darkestRow = 0`. -/
def findDarkestCell (cellData : ℕ → ℕ → List Pixel) : ℚ × ℕ × ℕ :=
  containerSampleCells.foldl (darkestStep cellData) (255, 0, 0)

/-- `findDarkestRegion`: center point and dimensions of the darkest cell. -/
def findDarkestRegion (cellData : ℕ → ℕ → List Pixel) (canvasWidth canvasHeight : ℚ) :
    ℚ × ℚ × ℚ × ℚ :=
  let cellWidth := canvasWidth / (CONTAINER_SAMPLE_COLS : ℚ)
  let cellHeight := canvasHeight / (CONTAINER_SAMPLE_ROWS : ℚ)
  let darkest := findDarkestCell cellData
  (((darkest.2.1 : ℚ)) * cellWidth + cellWidth / 2,
    ((darkest.2.2 : ℚ)) * cellHeight + cellHeight / 2,
    cellWidth, cellHeight)

/-- The expanding clip rectangle `(currentX, currentY, currentWidth,
currentHeight)` computed by `containerTransition.render`. -/
def containerCurrentRect (originX originY originWidth originHeight width height progress : ℚ) :
    ℚ × ℚ × ℚ × ℚ :=
  let eased := easeInOutCubic progress
  let startWidth := originWidth
  let startHeight := originHeight
  let startX := originX - startWidth / 2
  let startY := originY - startHeight / 2
  (startX + (0 - startX) * eased,
    startY + (0 - startY) * eased,
    startWidth + (width - startWidth) * eased,
    startHeight + (height - startHeight) * eased)

theorem mem_containerSampleCells {r c : ℕ} :
    (r, c) ∈ containerSampleCells ↔
      r < CONTAINER_SAMPLE_ROWS ∧ c < CONTAINER_SAMPLE_COLS := by
  simp [containerSampleCells, List.mem_flatMap, List.mem_map, List.mem_range]

theorem sampleEvery16_mem {data : List Pixel} :
    ∀ px ∈ sampleEvery16 data, px ∈ data := by
  induction data using sampleEvery16.induct with
  | case1 => intro px h; simp [sampleEvery16] at h
  | case2 p rest ih =>
    intro px h
    rw [sampleEvery16] at h
    rcases List.mem_cons.mp h with h' | h'
    · simp [h']
    · exact List.mem_cons_of_mem p (List.mem_of_mem_drop (ih px h'))

theorem sampleEvery16_ne_nil {data : List Pixel} (h : data ≠ []) :
    sampleEvery16 data ≠ [] := by
  match data, h with
  | p :: rest, _ => rw [sampleEvery16]; simp

theorem lumaOf_le_255 {r g b : ℕ} (hr : r ≤ 255) (hg : g ≤ 255) (hb : b ≤ 255) :
    lumaOf r g b ≤ 255 := by
  unfold lumaOf
  have hr' : (r:ℚ) ≤ 255 := by exact_mod_cast hr
  have hg' : (g:ℚ) ≤ 255 := by exact_mod_cast hg
  have hb' : (b:ℚ) ≤ 255 := by exact_mod_cast hb
  nlinarith

theorem avgSampledBrightness_le_255 {data : List Pixel} (hne : data ≠ [])
    (hbound : ∀ px ∈ data, px.1 ≤ 255 ∧ px.2.1 ≤ 255 ∧ px.2.2.1 ≤ 255) :
    avgSampledBrightness data ≤ 255 := by
  unfold avgSampledBrightness
  set samples := sampleEvery16 data with hs
  have hsne : samples ≠ [] := sampleEvery16_ne_nil hne
  have hlpos : 0 < samples.length := List.length_pos.mpr hsne
  have hlq : (0:ℚ) < (samples.length : ℚ) := by exact_mod_cast hlpos
  have hsum : (samples.map (fun px => lumaOf px.1 px.2.1 px.2.2.1)).sum ≤
      255 * (samples.length : ℚ) := by
    have hall : ∀ x ∈ samples.map (fun px => lumaOf px.1 px.2.1 px.2.2.1), x ≤ 255 := by
      intro x hx
      rcases List.mem_map.mp hx with ⟨px, hpx, hx'⟩
      have hmem : px ∈ data := sampleEvery16_mem px hpx
      obtain ⟨h1, h2, h3⟩ := hbound px hmem
      rw [← hx']
      exact lumaOf_le_255 h1 h2 h3
    calc (samples.map (fun px => lumaOf px.1 px.2.1 px.2.2.1)).sum
        ≤ (samples.map (fun px => lumaOf px.1 px.2.1 px.2.2.1)).length • (255:ℚ) :=
          List.sum_le_card_nsmul _ _ hall
      _ = 255 * (samples.length : ℚ) := by
          rw [List.length_map]
          simp [nsmul_eq_mul]
          ring
  rw [div_le_iff₀ hlq]
  linarith

/-- Fold invariant for the darkest-cell scan: the final accumulator is a
lower bound of every scanned cell's brightness, never exceeds the starting
brightness, and either is the untouched starting accumulator or records a
scanned cell together with that cell's actual brightness. -/
theorem foldl_darkestStep_spec (cellData : ℕ → ℕ → List Pixel) :
    ∀ (pairs : List (ℕ × ℕ)) (acc : ℚ × ℕ × ℕ),
      (∀ rc ∈ pairs,
        (pairs.foldl (darkestStep cellData) acc).1 ≤
          avgSampledBrightness (cellData rc.1 rc.2)) ∧
      (pairs.foldl (darkestStep cellData) acc).1 ≤ acc.1 ∧
      (pairs.foldl (darkestStep cellData) acc = acc ∨
        (((pairs.foldl (darkestStep cellData) acc).2.2,
            (pairs.foldl (darkestStep cellData) acc).2.1) ∈ pairs ∧
          avgSampledBrightness
            (cellData (pairs.foldl (darkestStep cellData) acc).2.2
              (pairs.foldl (darkestStep cellData) acc).2.1) =
            (pairs.foldl (darkestStep cellData) acc).1)) := by
  intro pairs
  induction pairs with
  | nil => intro acc; exact ⟨by simp, le_refl _, Or.inl rfl⟩
  | cons rc rest ih =>
    intro acc
    rw [List.foldl_cons]
    by_cases hlt : avgSampledBrightness (cellData rc.1 rc.2) < acc.1
    · have hstep : darkestStep cellData acc rc =
          (avgSampledBrightness (cellData rc.1 rc.2), rc.2, rc.1) := by
        unfold darkestStep
        rw [if_pos hlt]
      rw [hstep]
      obtain ⟨ihall, ihle, ihpoint⟩ :=
        ih (avgSampledBrightness (cellData rc.1 rc.2), rc.2, rc.1)
      refine ⟨?_, ?_, ?_⟩
      · intro rc' hrc'
        rcases List.mem_cons.mp hrc' with h' | h'
        · subst h'
          exact ihle
        · exact ihall rc' h'
      · exact le_of_lt (lt_of_le_of_lt ihle hlt)
      · rcases ihpoint with heq | ⟨hmem, havg⟩
        · right
          rw [heq]
          exact ⟨List.mem_cons_self rc rest, rfl⟩
        · right
          exact ⟨List.mem_cons_of_mem rc hmem, havg⟩
    · have hstep : darkestStep cellData acc rc = acc := by
        unfold darkestStep
        rw [if_neg hlt]
      rw [hstep]
      obtain ⟨ihall, ihle, ihpoint⟩ := ih acc
      refine ⟨?_, ihle, ?_⟩
      · intro rc' hrc'
        rcases List.mem_cons.mp hrc' with h' | h'
        · subst h'
          exact le_trans ihle (not_lt.mp hlt)
        · exact ihall rc' h'
      · rcases ihpoint with heq | ⟨hmem, havg⟩
        · exact Or.inl heq
        · exact Or.inr ⟨List.mem_cons_of_mem rc hmem, havg⟩

/-- **C7.** For the Container Transform: the origin cell chosen at `init`
is a sampled grid cell of minimum sampled average brightness (luma
`0.299R + 0.587G + 0.114B` over the sampled stride) among all sampled
cells, and the interpolated rectangle computed at `render` equals the
origin cell's bounds at progress `0` and the full canvas rectangle
`(0, 0, width, height)` at progress `1`. Hypothesis: each sampled cell's
pixel data is non-empty with byte-valued channels, which holds for every
`getImageData` result on a canvas at least as large as the sample grid. -/
theorem containerTransform_spec (cellData : ℕ → ℕ → List Pixel) (w h : ℚ)
    (hdata : ∀ r c, r < CONTAINER_SAMPLE_ROWS → c < CONTAINER_SAMPLE_COLS →
      cellData r c ≠ [] ∧ ∀ px ∈ cellData r c,
        px.1 ≤ 255 ∧ px.2.1 ≤ 255 ∧ px.2.2.1 ≤ 255) :
    ((findDarkestCell cellData).2.2 < CONTAINER_SAMPLE_ROWS ∧
      (findDarkestCell cellData).2.1 < CONTAINER_SAMPLE_COLS ∧
      ∀ r c, r < CONTAINER_SAMPLE_ROWS → c < CONTAINER_SAMPLE_COLS →
        avgSampledBrightness
            (cellData (findDarkestCell cellData).2.2 (findDarkestCell cellData).2.1) ≤
          avgSampledBrightness (cellData r c)) ∧
    containerCurrentRect (findDarkestRegion cellData w h).1
        (findDarkestRegion cellData w h).2.1
        (findDarkestRegion cellData w h).2.2.1
        (findDarkestRegion cellData w h).2.2.2 w h 0 =
      (((findDarkestCell cellData).2.1 : ℚ) * (w / (CONTAINER_SAMPLE_COLS : ℚ)),
        ((findDarkestCell cellData).2.2 : ℚ) * (h / (CONTAINER_SAMPLE_ROWS : ℚ)),
        w / (CONTAINER_SAMPLE_COLS : ℚ), h / (CONTAINER_SAMPLE_ROWS : ℚ)) ∧
    containerCurrentRect (findDarkestRegion cellData w h).1
        (findDarkestRegion cellData w h).2.1
        (findDarkestRegion cellData w h).2.2.1
        (findDarkestRegion cellData w h).2.2.2 w h 1 = (0, 0, w, h) := by
  refine ⟨?_, ?_, ?_⟩
  · obtain ⟨hall, hle, hpoint⟩ :=
      foldl_darkestStep_spec cellData containerSampleCells (255, 0, 0)
    have hfd : findDarkestCell cellData =
        containerSampleCells.foldl (darkestStep cellData) (255, 0, 0) := rfl
    rcases hpoint with heq | ⟨hmem, havg⟩
    · rw [hfd, heq]
      refine ⟨by decide, by decide, ?_⟩
      intro r c hr hc
      have h00 := hdata 0 0 (by decide) (by decide)
      have havg00 : avgSampledBrightness (cellData 0 0) ≤ 255 :=
        avgSampledBrightness_le_255 h00.1 h00.2
      have h255 := hall (r, c) (mem_containerSampleCells.mpr ⟨hr, hc⟩)
      rw [heq] at h255
      exact le_trans havg00 h255
    · rw [hfd]
      have hbounds := mem_containerSampleCells.mp hmem
      refine ⟨hbounds.1, hbounds.2, ?_⟩
      intro r c hr hc
      rw [havg]
      exact hall (r, c) (mem_containerSampleCells.mpr ⟨hr, hc⟩)
  · unfold containerCurrentRect findDarkestRegion
    rw [easeInOutCubic_zero]
    simp only [Prod.mk.injEq]
    refine ⟨by ring, by ring, by ring, by ring⟩
  · unfold containerCurrentRect findDarkestRegion
    rw [easeInOutCubic_one]
    simp only [Prod.mk.injEq]
    refine ⟨by ring, by ring, by ring, by ring⟩

/-- Concrete sampled pixel data with one dark cell at row 1, column 2,
for the C7 witness. -/
def witnessCellData : ℕ → ℕ → List Pixel := fun r c =>
  if r = 1 ∧ c = 2 then [(10, 10, 10, 255)] else [(200, 200, 200, 255)]

/-- Witness for C7: the theorem applied to `witnessCellData` on a 600×400
canvas, the data hypothesis discharged concretely. -/
theorem containerTransform_spec_witness :
    (∀ r c, r < CONTAINER_SAMPLE_ROWS → c < CONTAINER_SAMPLE_COLS →
      witnessCellData r c ≠ [] ∧ ∀ px ∈ witnessCellData r c,
        px.1 ≤ 255 ∧ px.2.1 ≤ 255 ∧ px.2.2.1 ≤ 255) ∧
    containerCurrentRect (findDarkestRegion witnessCellData 600 400).1
        (findDarkestRegion witnessCellData 600 400).2.1
        (findDarkestRegion witnessCellData 600 400).2.2.1
        (findDarkestRegion witnessCellData 600 400).2.2.2 600 400 1 =
      (0, 0, 600, 400) := by
  have hp : ∀ r c, r < CONTAINER_SAMPLE_ROWS → c < CONTAINER_SAMPLE_COLS →
      witnessCellData r c ≠ [] ∧ ∀ px ∈ witnessCellData r c,
        px.1 ≤ 255 ∧ px.2.1 ≤ 255 ∧ px.2.2.1 ≤ 255 := by
    intro r c _ _
    unfold witnessCellData
    split <;> refine ⟨by simp, ?_⟩ <;> intro px hpx <;>
      simp only [List.mem_singleton] at hpx <;> subst hpx <;> refine ⟨?_, ?_, ?_⟩ <;> norm_num
  exact ⟨hp, (containerTransform_spec witnessCellData 600 400 hp).2.2⟩

/-! ## Slideshow component state machine (layout.tsx lines 473-640)

The `BrutalistSlideshow` React component's mutable state — the manifest,
the loaded-image map, `currentIndex`, the `isTransitioning` flag (state
and ref are updated together), and the in-flight animation — is embedded
as an explicit record. `runTransition`, the completion branch of its
animation callback, and the `setInterval` tick become pure state
transformers. `instancesStarted` counts the times `runTransition` reached
`transition.init` / `requestAnimationFrame`, i.e. how many Transition
Instances were ever created. -/

/-- An opaque decoded-image handle. -/
abbrev ImgHandle := ℕ

structure SlideshowState where
  images : List String
  loadedImages : List (String × ImgHandle)
  currentIndex : ℕ
  isTransitioning : Bool
  activeTo : Option ℕ
  instancesStarted : ℕ
  hasCanvas : Bool
deriving DecidableEq, Repr

/-- `loadedImages.get(images[idx])`: out-of-range indices give `undefined`
and miss the map, modelled by `Option.bind`. -/
def lookupImage (s : SlideshowState) (idx : ℕ) : Option ImgHandle :=
  (s.images.get? idx).bind (fun src => s.loadedImages.lookup src)

/-- `runTransition(fromIndex, toIndex)`: returns early when the canvas or
either image handle is missing; otherwise sets the transitioning flags,
runs `transition.init` and schedules the animation (a new Transition
Instance). -/
def runTransition (s : SlideshowState) (fromIndex toIndex : ℕ) : SlideshowState :=
  if s.hasCanvas then
    match lookupImage s fromIndex, lookupImage s toIndex with
    | some _, some _ =>
        { s with isTransitioning := true
               , activeTo := some toIndex
               , instancesStarted := s.instancesStarted + 1 }
    | _, _ => s
  else s

/-- The `progress = 1` branch of the animation callback: commit
`currentIndex := toIndex`, clear the transitioning flags, drop the
instance. -/
def completeTransition (s : SlideshowState) : SlideshowState :=
  match s.activeTo with
  | some toIndex =>
      { s with currentIndex := toIndex, isTransitioning := false, activeTo := none }
  | none => s

/-- The `while (nextIndex === curr)` re-draw loop, run on an explicit
stream of pending draws. -/
def pickLoop (len curr : ℕ) : ℕ → List ℕ → Option ℕ
  | n, [] => if n = curr then none else some n
  | n, d :: ds => if n = curr then pickLoop len curr (d % len) ds else some n

/-- The next-index selection of the interval callback:
`nextIndex = floor(random()*len)`, then, only when `len > 1`, re-draw
while it equals the current index. -/
def pickNextIndex (len curr : ℕ) : List ℕ → Option ℕ
  | [] => none
  | d :: ds => if 1 < len then pickLoop len curr (d % len) ds else some (d % len)

/-- One `setInterval` tick: skipped entirely while `isTransitioningRef`
is set, otherwise picks the next index and calls `runTransition`. -/
def schedulerTick (s : SlideshowState) (draws : List ℕ) : SlideshowState :=
  if s.isTransitioning then s
  else
    match pickNextIndex s.images.length s.currentIndex draws with
    | none => s
    | some nextIndex => runTransition s s.currentIndex nextIndex

/-- The guard of the interval effect:
`if (images.length === 0 || loadedImages.size === 0) return;` — the
interval is installed only when this is `true`. -/
def schedulerActive (images : List String) (loadedCount : ℕ) : Bool :=
  !(images.length == 0 || loadedCount == 0)

/-- The `useState` initializer of `currentIndex`:
`images.length > 0 ? floor(random()*images.length) : 0`. -/
def initialIndex (len d : ℕ) : ℕ := if 0 < len then d % len else 0

/-- Component state right after mount. -/
def initState (images : List String) (loaded : List (String × ImgHandle))
    (d : ℕ) (canvas : Bool) : SlideshowState :=
  { images := images
  , loadedImages := loaded
  , currentIndex := initialIndex images.length d
  , isTransitioning := false
  , activeTo := none
  , instancesStarted := 0
  , hasCanvas := canvas }

/-- What the component returns: the empty-manifest message, or the canvas
screen (with the loading message while the cache is empty). -/
inductive View where
  | noImagesMessage : View
  | canvasScreen (loading : Bool) : View
deriving DecidableEq, Repr

def renderView (images : List String) (loadedCount : ℕ) : View :=
  if images.length = 0 then View.noImagesMessage
  else View.canvasScreen (loadedCount == 0)

/-- The events that mutate the modelled state: an interval tick (possible
only while the interval effect's guard held) and the completion branch of
the animation callback. Static draws and resizes do not change any
modelled field. -/
inductive SlideStep : SlideshowState → SlideshowState → Prop
  | tick (s : SlideshowState) (draws : List ℕ)
      (hactive : schedulerActive s.images s.loadedImages.length = true) :
      SlideStep s (schedulerTick s draws)
  | complete (s : SlideshowState) : SlideStep s (completeTransition s)

/-- States reachable from a given state by any sequence of events. -/
def Reachable (s₀ s : SlideshowState) : Prop :=
  Relation.ReflTransGen SlideStep s₀ s

/-! ## Image preloading (layout.tsx lines 484-503)

The preload effect attaches only an `onload` handler to each `Image`;
`loadCount` is incremented per successful load and the loaded map is
published (`setLoadedImages`) exactly when `loadCount === images.length`.
`ok src` says whether the load of `src` fires `onload` this session. -/

/-- The final value of `loadCount`: one increment per manifest entry whose
load succeeded (failed loads have no handler at all). -/
def preloadLoadCount (images : List String) (ok : String → Bool) : ℕ :=
  images.countP ok

/-- Whether `setLoadedImages` ever fires: some handler must see
`loadCount === images.length` (and with an empty manifest the effect
returns before creating any handler). -/
def preloadPublishes (images : List String) (ok : String → Bool) : Bool :=
  !images.isEmpty && (preloadLoadCount images ok == images.length)

/-! ## Basic state-machine lemmas -/

theorem runTransition_images (s : SlideshowState) (fromIndex toIndex : ℕ) :
    (runTransition s fromIndex toIndex).images = s.images := by
  unfold runTransition
  split
  · split <;> rfl
  · rfl

theorem completeTransition_images (s : SlideshowState) :
    (completeTransition s).images = s.images := by
  unfold completeTransition
  split <;> rfl

theorem schedulerTick_images (s : SlideshowState) (draws : List ℕ) :
    (schedulerTick s draws).images = s.images := by
  unfold schedulerTick
  split
  · rfl
  · split
    · rfl
    · exact runTransition_images s s.currentIndex _

theorem slideStep_images {s t : SlideshowState} (h : SlideStep s t) :
    t.images = s.images := by
  cases h with
  | tick draws hactive => exact schedulerTick_images s draws
  | complete => exact completeTransition_images s

theorem reachable_images {s₀ s : SlideshowState} (h : Reachable s₀ s) :
    s.images = s₀.images := by
  induction h with
  | refl => rfl
  | tail _ hstep ih => rw [slideStep_images hstep, ih]

theorem pickLoop_ne_and_lt (len curr : ℕ) (hlen : 0 < len) :
    ∀ (ds : List ℕ) (n : ℕ), n < len → ∀ m, pickLoop len curr n ds = some m →
      m ≠ curr ∧ m < len := by
  intro ds
  induction ds with
  | nil =>
    intro n hn m hm
    unfold pickLoop at hm
    split at hm
    · exact absurd hm (by simp)
    · rename_i hne
      obtain rfl : n = m := by injection hm
      exact ⟨hne, hn⟩
  | cons d ds ih =>
    intro n hn m hm
    unfold pickLoop at hm
    split at hm
    · exact ih (d % len) (Nat.mod_lt d hlen) m hm
    · rename_i hne
      obtain rfl : n = m := by injection hm
      exact ⟨hne, hn⟩

theorem pickNextIndex_spec (len curr : ℕ) (hlen : 1 < len) (ds : List ℕ) (m : ℕ)
    (h : pickNextIndex len curr ds = some m) : m ≠ curr ∧ m < len := by
  cases ds with
  | nil => exact absurd h (by simp [pickNextIndex])
  | cons d ds' =>
    simp only [pickNextIndex] at h
    rw [if_pos hlen] at h
    exact pickLoop_ne_and_lt len curr (by omega) ds' (d % len)
      (Nat.mod_lt d (by omega)) m h

theorem pickNextIndex_lt (len curr : ℕ) (hlen : 0 < len) (ds : List ℕ) (m : ℕ)
    (h : pickNextIndex len curr ds = some m) : m < len := by
  cases ds with
  | nil => exact absurd h (by simp [pickNextIndex])
  | cons d ds' =>
    simp only [pickNextIndex] at h
    by_cases h1 : 1 < len
    · rw [if_pos h1] at h
      exact (pickLoop_ne_and_lt len curr hlen ds' (d % len) (Nat.mod_lt d hlen) m h).2
    · rw [if_neg h1] at h
      obtain rfl : d % len = m := by injection h
      exact Nat.mod_lt d hlen

/-! ## C1 : single-flight -/

/-- A state in which a transition is currently Running, with both images
of a new request present in the cache. -/
def runningState : SlideshowState :=
  { images := ["a", "b"]
  , loadedImages := [("a", 0), ("b", 1)]
  , currentIndex := 0
  , isTransitioning := true
  , activeTo := some 1
  , instancesStarted := 1
  , hasCanvas := true }

/-- **C1 (counterexample).** `runTransition` itself performs no
single-flight check: invoked on a Running state (`isTransitioning` true),
the call is not rejected — it reaches `transition.init` and
`requestAnimationFrame` and creates a second concurrent Transition
Instance, contradicting the claim that every such call is a no-op or
error. -/
theorem runTransition_no_guard :
    runningState.isTransitioning = true ∧
    (runTransition runningState 0 1).instancesStarted =
      runningState.instancesStarted + 1 ∧
    runTransition runningState 0 1 ≠ runningState := by
  refine ⟨rfl, rfl, by decide⟩

/-- **C1 (amended).** The single-flight invariant is enforced at the call
site instead: the scheduler's interval tick checks `isTransitioningRef`
first and is a complete no-op while the Runner is Running, so the
scheduler — the only caller of `runTransition` — never creates a second
concurrent Transition Instance. -/
theorem schedulerTick_running_noop (s : SlideshowState) (draws : List ℕ)
    (h : s.isTransitioning = true) : schedulerTick s draws = s := by
  unfold schedulerTick
  rw [if_pos h]

/-- Witness for the amended C1: a tick on a concrete Running state changes
nothing. -/
theorem schedulerTick_running_noop_witness :
    runningState.isTransitioning = true ∧
    schedulerTick runningState [0, 1] = runningState :=
  ⟨rfl, schedulerTick_running_noop runningState [0, 1] rfl⟩

/-! ## C2 : preload completion -/

/-- **C2 (code bug).** Evaluating the preload model: when every load
succeeds the loaded map is published, but when one image fails to load
(`"b"` here) the count can never reach `images.length`, so
`setLoadedImages` never fires — the load step never completes, instead of
completing with the failed URL dropped. -/
theorem preload_stalls_on_failed_image :
    preloadPublishes ["a", "b"] (fun src => src == "a") = false ∧
    preloadPublishes ["a", "b"] (fun _ => true) = true := by
  constructor <;> rfl

/-! ## C3 : next-index selection -/

/-- A state with a single-image manifest, loaded and idle. -/
def singleImageState : SlideshowState :=
  { images := ["a"]
  , loadedImages := [("a", 0)]
  , currentIndex := 0
  , isTransitioning := false
  , activeTo := none
  , instancesStarted := 0
  , hasCanvas := true }

/-- **C3 (counterexample).** With a manifest of exactly one entry, an idle
tick is not skipped: the distinctness loop is guarded by
`images.length > 1`, so the tick picks `nextIndex = 0 = currentIndex` and
calls `runTransition(0, 0)`, which starts a self-transition — contradicting
the claim that no transition is ever triggered for a one-entry manifest. -/
theorem singleImage_tick_starts_transition :
    (schedulerTick singleImageState [5]).isTransitioning = true ∧
    (schedulerTick singleImageState [5]).instancesStarted = 1 ∧
    (schedulerTick singleImageState [5]).activeTo = some 0 := by
  refine ⟨rfl, rfl, rfl⟩

/-- **C3 (amended).** On a tick taken while Idle: if the manifest has more
than one entry, the selected next index is distinct from the current
Playback Position (and in range); if it has exactly one entry, the pick
returns index `0` — equal to the current position — and the tick triggers
a self-transition rather than skipping. -/
theorem schedulerTick_pick_spec :
    (∀ (len curr : ℕ) (ds : List ℕ) (m : ℕ), 1 < len →
      pickNextIndex len curr ds = some m → m ≠ curr ∧ m < len) ∧
    (∀ (curr d : ℕ) (ds : List ℕ), pickNextIndex 1 curr (d :: ds) = some 0) := by
  constructor
  · intro len curr ds m hlen h
    exact pickNextIndex_spec len curr hlen ds m h
  · intro curr d ds
    simp only [pickNextIndex]
    rw [if_neg (by omega)]
    simp [Nat.mod_one]

/-- Witness for the amended C3: both conjuncts applied at concrete inputs
with their hypotheses discharged. -/
theorem schedulerTick_pick_spec_witness :
    (1 < 2 ∧ pickNextIndex 2 0 [1] = some 1 ∧ (1 ≠ 0 ∧ 1 < 2)) ∧
    pickNextIndex 1 0 [3] = some 0 :=
  ⟨⟨by norm_num, rfl, schedulerTick_pick_spec.1 2 0 [1] 1 (by norm_num) rfl⟩,
    schedulerTick_pick_spec.2 0 3 []⟩

/-! ## C4 : missing image handle -/

/-- **C4.** If either the from-image or the to-image handle is missing
from the cache when `runTransition` is invoked, the call is a complete
no-op: the state is unchanged, so no transition begins, the Runner's flag
and the Playback Position are untouched, and no instance is created — the
scheduler simply retries on a later tick. -/
theorem runTransition_missing_noop (s : SlideshowState) (fromIndex toIndex : ℕ)
    (h : lookupImage s fromIndex = none ∨ lookupImage s toIndex = none) :
    runTransition s fromIndex toIndex = s := by
  unfold runTransition
  by_cases hc : s.hasCanvas = true
  · rw [if_pos hc]
    cases h1 : lookupImage s fromIndex with
    | none => cases h2 : lookupImage s toIndex <;> rfl
    | some a =>
      cases h2 : lookupImage s toIndex with
      | none => rfl
      | some b =>
        rcases h with h | h
        · rw [h1] at h
          exact absurd h (by simp)
        · rw [h2] at h
          exact absurd h (by simp)
  · rw [if_neg hc]

/-- A state whose manifest names image `"b"` that never loaded. -/
def missingImageState : SlideshowState :=
  { images := ["a", "b"]
  , loadedImages := [("a", 0)]
  , currentIndex := 0
  , isTransitioning := false
  , activeTo := none
  , instancesStarted := 0
  , hasCanvas := true }

/-- Witness for C4: starting a transition towards the never-loaded image
`"b"` changes nothing. -/
theorem runTransition_missing_noop_witness :
    (lookupImage missingImageState 0 = none ∨ lookupImage missingImageState 1 = none) ∧
    runTransition missingImageState 0 1 = missingImageState :=
  ⟨Or.inr rfl, runTransition_missing_noop missingImageState 0 1 (Or.inr rfl)⟩

/-! ## C10 : validity of the Playback Position -/

/-- The index invariant: the Playback Position is in range whenever the
manifest is non-empty, and any in-flight transition targets an in-range
index. -/
def IndexInvariant (s : SlideshowState) : Prop :=
  (0 < s.images.length → s.currentIndex < s.images.length) ∧
  (∀ t, s.activeTo = some t → t < s.images.length)

theorem runTransition_invariant (s : SlideshowState) (fromIndex toIndex : ℕ)
    (hinv : IndexInvariant s) (ht : toIndex < s.images.length) :
    IndexInvariant (runTransition s fromIndex toIndex) := by
  unfold runTransition
  split
  · split
    · constructor
      · intro hlen
        exact hinv.1 hlen
      · intro t' ht'
        simp only [Option.some.injEq] at ht'
        rw [← ht']
        exact ht
    · exact hinv
  · exact hinv

theorem completeTransition_invariant (s : SlideshowState)
    (hinv : IndexInvariant s) : IndexInvariant (completeTransition s) := by
  unfold completeTransition
  split
  · rename_i t ht
    constructor
    · intro _
      exact hinv.2 t ht
    · intro t' ht'
      simp at ht'
  · exact hinv

theorem schedulerTick_invariant (s : SlideshowState) (draws : List ℕ)
    (hinv : IndexInvariant s) (hlen : 0 < s.images.length) :
    IndexInvariant (schedulerTick s draws) := by
  unfold schedulerTick
  split
  · exact hinv
  · split
    · exact hinv
    · rename_i m hm
      exact runTransition_invariant s s.currentIndex m hinv
        (pickNextIndex_lt s.images.length s.currentIndex hlen draws m hm)

theorem initState_invariant (images : List String)
    (loaded : List (String × ImgHandle)) (d : ℕ) (canvas : Bool) :
    IndexInvariant (initState images loaded d canvas) := by
  constructor
  · intro hlen
    show initialIndex images.length d < images.length
    have hlen' : 0 < images.length := hlen
    unfold initialIndex
    rw [if_pos hlen']
    exact Nat.mod_lt d hlen'
  · intro t ht
    simp [initState] at ht

theorem reachable_invariant {s₀ s : SlideshowState}
    (hinv : IndexInvariant s₀) (h : Reachable s₀ s) : IndexInvariant s := by
  induction h with
  | refl => exact hinv
  | tail _ hstep ih =>
    cases hstep with
    | tick draws hactive =>
      apply schedulerTick_invariant _ draws ih
      simp only [schedulerActive, Bool.not_eq_true', Bool.or_eq_false_iff,
        beq_eq_false_iff_ne, ne_eq] at hactive
      omega
    | complete => exact completeTransition_invariant _ ih

/-- **C10.** For every non-empty manifest, the Playback Position is a
valid index — `currentIndex < images.length` — in every reachable state:
established by the random initializer and preserved both by the
scheduler's next-index pick and by the Runner's commit of `toIndex` at
transition completion. -/
theorem currentIndex_always_valid (images : List String)
    (loaded : List (String × ImgHandle)) (d : ℕ) (canvas : Bool)
    (s : SlideshowState) (hne : images ≠ [])
    (hreach : Reachable (initState images loaded d canvas) s) :
    s.currentIndex < s.images.length ∧ s.images = images := by
  have hims : s.images = images := reachable_images hreach
  have hinv := reachable_invariant (initState_invariant images loaded d canvas) hreach
  refine ⟨?_, hims⟩
  apply hinv.1
  rw [hims]
  exact List.length_pos.mpr hne

/-- Witness for C10: the invariant at the freshly mounted state of a
two-image manifest. -/
theorem currentIndex_always_valid_witness :
    (["a", "b"] ≠ ([] : List String)) ∧
    (initState ["a", "b"] [("a", 0), ("b", 1)] 7 true).currentIndex <
      (initState ["a", "b"] [("a", 0), ("b", 1)] 7 true).images.length :=
  ⟨by decide,
    (currentIndex_always_valid ["a", "b"] [("a", 0), ("b", 1)] 7 true _
      (by decide) Relation.ReflTransGen.refl).1⟩

/-! ## C9 : empty manifest -/

/-- **C9.** With an empty manifest the component renders the static
"no images" message, the interval effect's guard fails (no interval is
ever installed), and in every reachable state no transition was ever
started: no call to `runTransition` has created an instance and the
Runner is Idle. -/
theorem emptyManifest_spec (loaded : List (String × ImgHandle)) (d : ℕ)
    (canvas : Bool) (s : SlideshowState)
    (hreach : Reachable (initState [] loaded d canvas) s) :
    renderView s.images s.loadedImages.length = View.noImagesMessage ∧
    schedulerActive s.images s.loadedImages.length = false ∧
    s.instancesStarted = 0 ∧ s.isTransitioning = false := by
  have main : s.images = [] ∧ s.instancesStarted = 0 ∧
      s.isTransitioning = false ∧ s.activeTo = none := by
    induction hreach with
    | refl => exact ⟨rfl, rfl, rfl, rfl⟩
    | tail _ hstep ih =>
      obtain ⟨hi, hin, hit, hat⟩ := ih
      cases hstep with
      | tick draws hactive =>
        rw [hi] at hactive
        simp [schedulerActive] at hactive
      | complete =>
        rename_i b _
        have hb : completeTransition b = b := by
          unfold completeTransition
          rw [hat]
        rw [hb]
        exact ⟨hi, hin, hit, hat⟩
  obtain ⟨hi, hin, hit, _⟩ := main
  rw [hi]
  exact ⟨by simp [renderView], by simp [schedulerActive], hin, hit⟩

/-- Witness for C9: the theorem at the freshly mounted empty-manifest
state. -/
theorem emptyManifest_spec_witness :
    renderView (initState [] [] 0 true).images
      (initState [] [] 0 true).loadedImages.length = View.noImagesMessage ∧
    schedulerActive (initState [] [] 0 true).images
      (initState [] [] 0 true).loadedImages.length = false ∧
    (initState [] [] 0 true).instancesStarted = 0 ∧
    (initState [] [] 0 true).isTransitioning = false :=
  emptyManifest_spec [] 0 true _ Relation.ReflTransGen.refl

end Brutalist
